import Mathlib

/-!
Verification of `reco_utils/dataset/rbm_splitters.py` (class `splitter`).

Shallow embedding conventions:
* A dataframe row is `Row` (user id, item id, rating).  User and item ids are
  modelled as naturals (the source treats them as opaque hashable values),
  ratings as exact rationals.
* `pandas.sort_values(by=[col_user])` is modelled by a deterministic
  insertion sort on the user key; `pandas.unique` by `pdUnique`
  (first-occurrence deduplication), and the four dictionaries of
  `gen_index` by `indexOf` / list indexing.
* `scipy.sparse.coo_matrix(...).toarray()` sums duplicate coordinates, so a
  matrix cell is the sum of the ratings of all rows mapped to it.
* NumPy arrays are modelled by total functions `ℕ → ℕ → ℚ` held in an
  explicit store (a list of arrays addressed by position), so that
  `self.AM`, `Xtr = self.AM.copy()` and `Xtst = self.AM.copy()` are three
  distinct storage cells and in-place writes are explicit.
* Python's ambient `random` module generator is modelled by `PyRandom`,
  an abstract stream of naturals with a cursor; `random.choice(seq)`
  consumes one draw and picks `seq[draw % len(seq)]`, raising on an empty
  sequence exactly as CPython does.  `np.random.seed(seed)` reseeds
  NumPy's global generator, which no later statement of
  `stratified_split` reads (all draws go through the `random` module), so
  the seed only lands in the returned `npRandomState` field of the model.
* Fallible statements (`random.choice` on `[]`, `list.remove` of a missing
  element, `assert`, the sparsity `print` on a 0-element matrix, and the
  final `del` of possibly-unbound names) return `Except String`.
* The split ratio is modelled as an exact rational; IEEE-754 rounding of
  the Python float expression `(1-ratio)*100` is outside the model.
-/

namespace RBM

attribute [local semireducible] Rat.add Rat.sub Rat.mul Rat.inv

/-- One dataframe row: `(user_id, item_id, rating)`.  The optional
timestamp column is unused by the core algorithm and omitted. -/
structure Row where
  user : ℕ
  item : ℕ
  rating : ℚ
deriving DecidableEq

/-- Python `int()` applied to an exact rational: truncation toward zero. -/
def pyTrunc (q : ℚ) : ℤ := Int.tdiv q.num q.den

/-- `test_cut = int((1-ratio)*100)` from line 220 of the source. -/
def test_cut (ratio : ℚ) : ℤ := pyTrunc ((1 - ratio) * 100)

/-- `tst[u] = (rated[u]*test_cut)//100` (line 236): Python `//` is floor
division; `range(tst[u])` treats a negative count as zero iterations,
hence the `Int.toNat`. -/
def tstCount (rated : ℕ) (ratio : ℚ) : ℕ :=
  (Int.fdiv ((rated : ℤ) * test_cut ratio) 100).toNat

/-- Stable insertion of a row into a list sorted by ascending user id. -/
def insertByUser (t : Row) : List Row → List Row
  | [] => [t]
  | s :: l => if s.user ≤ t.user then s :: insertByUser t l else t :: s :: l

/-- `self.df_ = self.df.sort_values(by=[self.col_user])` (line 94),
modelled by a deterministic sort on the user key. -/
def sortByUser : List Row → List Row
  | [] => []
  | t :: l => insertByUser t (sortByUser l)

/-- `pandas.unique`: distinct values in order of first appearance;
`seen` accumulates the values already emitted. -/
def pdUniqueAux : List ℕ → List ℕ → List ℕ
  | [], _ => []
  | a :: l, seen =>
    if a ∈ seen then pdUniqueAux l seen else a :: pdUniqueAux l (a :: seen)

/-- `pandas.unique` on a column. -/
def pdUnique (l : List ℕ) : List ℕ := pdUniqueAux l []

/-- `unique_users = self.df_[self.col_user].unique()` (line 97). -/
def uniqueUsers (df : List Row) : List ℕ := pdUnique ((sortByUser df).map Row.user)

/-- `unique_items = self.df_[self.col_item].unique()` (line 98). -/
def uniqueItems (df : List Row) : List ℕ := pdUnique ((sortByUser df).map Row.item)

/-- `self.Nusers = len(unique_users)` (line 100). -/
def Nusers (df : List Row) : ℕ := (uniqueUsers df).length

/-- `self.Nitems = len(unique_items)` (line 101). -/
def Nitems (df : List Row) : ℕ := (uniqueItems df).length

/-- `self.map_users = {x:i for i, x in enumerate(unique_users)}` (line 104):
the position of a raw user id in the unique-user list. -/
def map_users (df : List Row) (x : ℕ) : ℕ := (uniqueUsers df).indexOf x

/-- `self.map_items = {x:i for i, x in enumerate(unique_items)}` (line 105). -/
def map_items (df : List Row) (x : ℕ) : ℕ := (uniqueItems df).indexOf x

/-- `self.map_back_users = {i:x for i, x in enumerate(unique_users)}`
(line 108); `none` models a key absent from the dictionary. -/
def map_back_users (df : List Row) (i : ℕ) : Option ℕ := (uniqueUsers df)[i]?

/-- `self.map_back_items = {i:x for i, x in enumerate(unique_items)}`
(line 109). -/
def map_back_items (df : List Row) (i : ℕ) : Option ℕ := (uniqueItems df)[i]?

/-- The dense affinity matrix of line 161:
`coo_matrix((r_, (usr_id, itm_id)), shape=(Nusers, Nitems)).toarray()`.
`coo_matrix` sums the ratings of duplicate `(row, column)` coordinates, so
cell `(u, i)` is the sum over all (sorted) dataframe rows mapped to it. -/
def gen_affinity_core (df : List Row) : ℕ → ℕ → ℚ := fun u i =>
  (((sortByUser df).filter
      (fun t => map_users df t.user == u && map_items df t.item == i)).map Row.rating).sum

/-- `gen_affinity_matrix` (lines 121-169) including its observable failure:
for a 0-element matrix the sparsity statistic is `0/0 = nan` and the
`'%d' % sparsness` formatting of line 169 raises
`ValueError: cannot convert float NaN to integer`. -/
def gen_affinity_matrixE (df : List Row) : Except String (ℕ → ℕ → ℚ) :=
  if Nusers df * Nitems df = 0 then
    .error "ValueError: cannot convert float NaN to integer"
  else
    .ok (gen_affinity_core df)

/-- `np.asarray(np.where(np.logical_not(X[u,0:] == 0))).flatten().tolist()`:
the ascending list of non-zero column indices of a row (lines 183, 241). -/
def rowNonzeroL (row : ℕ → ℚ) (n : ℕ) : List ℕ :=
  (List.range n).filter (fun i => decide (row i ≠ 0))

/-- `rated[u] = np.sum(X[u,:] != 0)`: non-zero count of row `u` (line 233). -/
def ratedOf (X : ℕ → ℕ → ℚ) (n u : ℕ) : ℕ := (rowNonzeroL (X u) n).length

/-- `map_back_sparse` (lines 173-209): one output row per non-zero cell,
grouped by ascending row index then ascending column index, with matrix
indices sent through the backward dictionaries by `pandas.Series.map`,
which silently yields the missing-value sentinel (`none`, NaN in pandas)
for a key absent from the dictionary. -/
def map_back_sparse (X : ℕ → ℕ → ℚ) (m n : ℕ)
    (backU backI : ℕ → Option ℕ) : List (Option ℕ × Option ℕ × ℚ) :=
  (List.range m).flatMap fun u =>
    (rowNonzeroL (X u) n).map fun i => (backU u, backI i, X u i)

/-- The ambient state of Python's `random` module generator: an abstract
stream of naturals and a cursor.  This is process-global state, not an
argument of `stratified_split` in the source. -/
structure PyRandom where
  stream : ℕ → ℕ
  pos : ℕ

/-- One draw below `n` from the ambient generator. -/
def randbelow (g : PyRandom) (n : ℕ) : ℕ × PyRandom :=
  (g.stream g.pos % n, ⟨g.stream, g.pos + 1⟩)

/-- `random.choice(idx)` (line 245): `seq[_randbelow(len(seq))]`, raising
`IndexError` on an empty sequence. -/
def pyChoice (l : List ℕ) (g : PyRandom) : Except String (ℕ × PyRandom) :=
  match l with
  | [] => .error "IndexError: Cannot choose from an empty sequence"
  | _ :: _ =>
    let p := randbelow g l.length
    .ok (l.getD p.1 0, p.2)

/-- `idx.remove(sub_el)` (line 246): removes the first occurrence, raising
`ValueError` when the element is absent. -/
def pyRemove (l : List ℕ) (x : ℕ) : Except String (List ℕ) :=
  if x ∈ l then .ok (l.erase x) else .error "ValueError: list.remove(x): x not in list"

/-- The inner sampling loop of lines 244-247: draw `k` elements without
replacement from `idx`, moving each drawn element to the end of
`idx_tst`. -/
def sampleLoop : ℕ → List ℕ → List ℕ → PyRandom →
    Except String (List ℕ × List ℕ × PyRandom)
  | 0, idx, idx_tst, g => .ok (idx, idx_tst, g)
  | k + 1, idx, idx_tst, g => do
    let (sub_el, g') ← pyChoice idx g
    let idx' ← pyRemove idx sub_el
    sampleLoop k idx' (idx_tst ++ [sub_el]) g'

/-- The array store: `self.AM` lives at address 0, `Xtr` at address 1 and
`Xtst` at address 2 (lines 229-230 allocate the two copies). -/
abbrev Store := List (ℕ → ℕ → ℚ)

/-- Read the array at an address. -/
def storeGet (st : Store) (aid : ℕ) : ℕ → ℕ → ℚ := st.getD aid (fun _ _ => 0)

/-- Overwrite the array at an address in place. -/
def storeSet (st : Store) (aid : ℕ) (A : ℕ → ℕ → ℚ) : Store := st.set aid A

/-- `X[u, cols] = 0`: fancy-indexed assignment zeroing the listed columns
of row `u` (lines 249-250). -/
def zeroCols (A : ℕ → ℕ → ℚ) (u : ℕ) (cols : List ℕ) : ℕ → ℕ → ℚ :=
  fun u' i => if u' = u ∧ i ∈ cols then 0 else A u' i

/-- The per-user loop of lines 238-252, threading the store and the
ambient generator.  For each user: read the non-zero indices of the
`Xtr` row, sample `tst[u]` of them into `idx_tst`, zero those columns in
`Xtr`, zero the remaining sampled-from columns in `Xtst`, then run the
`assert` of line 252. -/
def splitUserLoop (n : ℕ) (tst rated : ℕ → ℕ) :
    List ℕ → Store → PyRandom → Except String (Store × PyRandom)
  | [], st, g => .ok (st, g)
  | u :: us, st, g => do
    let idx0 := rowNonzeroL (storeGet st 1 u) n
    let (idxF, idxT, g') ← sampleLoop (tst u) idx0 [] g
    let st1 := storeSet st 1 (zeroCols (storeGet st 1) u idxT)
    let st2 := storeSet st1 2 (zeroCols (storeGet st1 2) u idxF)
    if ratedOf (storeGet st2 1) n u + ratedOf (storeGet st2 2) n u = rated u then
      splitUserLoop n tst rated us st2 g'
    else
      .error "AssertionError"

/-- Everything `stratified_split` returns (line 255), together with the
final array store, the final ambient-generator state, and the state the
call left in NumPy's global generator via `np.random.seed(seed)`. -/
structure SplitOut where
  m : ℕ
  n : ℕ
  store : Store
  g : PyRandom
  npRandomState : ℕ
  dfTrain : List (Option ℕ × Option ℕ × ℚ)
  dfTest : List (Option ℕ × Option ℕ × ℚ)
  mapU : ℕ → Option ℕ
  mapI : ℕ → Option ℕ

instance : Inhabited SplitOut :=
  ⟨⟨0, 0, [], ⟨fun _ => 0, 0⟩, 0, [], [], fun _ => none, fun _ => none⟩⟩

/-- Per-user non-zero counts `rated = np.sum(Xtr != 0, axis=1)` (line 233),
computed from the freshly copied train matrix, which at that point still
equals the affinity matrix. -/
def ratedF (df : List Row) : ℕ → ℕ :=
  fun u => ratedOf (gen_affinity_core df) (Nitems df) u

/-- Per-user test quota `tst = (rated*test_cut)//100` (line 236). -/
def tstF (df : List Row) (ratio : ℚ) : ℕ → ℕ :=
  fun u => tstCount (ratedF df u) ratio

/-- `stratified_split` (lines 216-255).  `np.random.seed(seed)` only
reseeds NumPy's global generator (recorded in `npRandomState`); every
draw of the sampling loop comes from the `random`-module generator `g0`.
After the loop, `del idx, sub_el, idx_tst` (line 254) raises `NameError`
whenever a name was never bound: `idx`/`idx_tst` when the outer loop ran
zero times, `sub_el` when no inner iteration ever ran. -/
def stratified_split (df : List Row) (ratio : ℚ) (seed : ℕ) (g0 : PyRandom) :
    Except String SplitOut :=
  match gen_affinity_matrixE df with
  | .error e => .error e
  | .ok AM =>
    match splitUserLoop (Nitems df) (tstF df ratio) (ratedF df)
        (List.range (Nusers df)) [AM, AM, AM] g0 with
    | .error e => .error e
    | .ok (st', g') =>
      if Nusers df = 0 then .error "NameError: name idx is not defined"
      else if (List.range (Nusers df)).all (fun u => tstF df ratio u == 0) then
        .error "NameError: name sub_el is not defined"
      else
        .ok ⟨Nusers df, Nitems df, st', g', seed,
          map_back_sparse (storeGet st' 1) (Nusers df) (Nitems df)
            (map_back_users df) (map_back_items df),
          map_back_sparse (storeGet st' 2) (Nusers df) (Nitems df)
            (map_back_users df) (map_back_items df),
          map_back_users df, map_back_items df⟩

/-- The result of a successful split (`default` after a raise). -/
def splitResult (df : List Row) (ratio : ℚ) (seed : ℕ) (g0 : PyRandom) : SplitOut :=
  ((stratified_split df ratio seed g0).toOption).getD default

/-- The returned train matrix `Xtr`. -/
def trainM (df : List Row) (ratio : ℚ) (seed : ℕ) (g0 : PyRandom) : ℕ → ℕ → ℚ :=
  storeGet (splitResult df ratio seed g0).store 1

/-- The returned test matrix `Xtst`. -/
def testM (df : List Row) (ratio : ℚ) (seed : ℕ) (g0 : PyRandom) : ℕ → ℕ → ℚ :=
  storeGet (splitResult df ratio seed g0).store 2

/-- The set of non-zero column indices of row `u` (first `n` columns). -/
def nzSet (X : ℕ → ℕ → ℚ) (n u : ℕ) : Finset ℕ :=
  (Finset.range n).filter (fun i => X u i ≠ 0)

/-! ### Properties of `pandas.unique` and the user sort -/

theorem mem_pdUniqueAux (l : List ℕ) :
    ∀ (seen : List ℕ) (x : ℕ), x ∈ pdUniqueAux l seen ↔ x ∈ l ∧ x ∉ seen := by
  induction l with
  | nil => intro seen x; simp [pdUniqueAux]
  | cons a l ih =>
    intro seen x
    by_cases ha : a ∈ seen
    · rw [pdUniqueAux, if_pos ha, ih]
      constructor
      · rintro ⟨h1, h2⟩; exact ⟨List.mem_cons_of_mem _ h1, h2⟩
      · rintro ⟨h1, h2⟩
        rcases List.mem_cons.1 h1 with rfl | h1
        · exact absurd ha h2
        · exact ⟨h1, h2⟩
    · rw [pdUniqueAux, if_neg ha]
      constructor
      · intro h
        rcases List.mem_cons.1 h with rfl | h
        · exact ⟨List.mem_cons_self _ _, ha⟩
        · rcases (ih _ _).1 h with ⟨h1, h2⟩
          refine ⟨List.mem_cons_of_mem _ h1, fun hx => h2 (List.mem_cons_of_mem _ hx)⟩
      · rintro ⟨h1, h2⟩
        rcases List.mem_cons.1 h1 with rfl | h1
        · exact List.mem_cons_self _ _
        · by_cases hxa : x = a
          · exact hxa ▸ List.mem_cons_self _ _
          · exact List.mem_cons_of_mem _
              ((ih _ _).2 ⟨h1, fun hx => (List.mem_cons.1 hx).elim hxa h2⟩)

theorem nodup_pdUniqueAux (l : List ℕ) : ∀ seen : List ℕ, (pdUniqueAux l seen).Nodup := by
  induction l with
  | nil => intro seen; simp [pdUniqueAux]
  | cons a l ih =>
    intro seen
    by_cases ha : a ∈ seen
    · rw [pdUniqueAux, if_pos ha]; exact ih seen
    · rw [pdUniqueAux, if_neg ha]
      refine List.Nodup.cons (fun hmem => ?_) (ih _)
      exact ((mem_pdUniqueAux l _ a).1 hmem).2 (List.mem_cons_self _ _)

theorem mem_pdUnique {l : List ℕ} {x : ℕ} : x ∈ pdUnique l ↔ x ∈ l := by
  rw [pdUnique, mem_pdUniqueAux]; simp

theorem nodup_pdUnique (l : List ℕ) : (pdUnique l).Nodup := nodup_pdUniqueAux l []

theorem insertByUser_perm (t : Row) (l : List Row) : (insertByUser t l).Perm (t :: l) := by
  induction l with
  | nil => rfl
  | cons s l ih =>
    rw [insertByUser]
    by_cases h : s.user ≤ t.user
    · rw [if_pos h]
      exact (ih.cons s).trans (List.Perm.swap t s l)
    · rw [if_neg h]

theorem sortByUser_perm (df : List Row) : (sortByUser df).Perm df := by
  induction df with
  | nil => rfl
  | cons t l ih =>
    exact (insertByUser_perm t (sortByUser l)).trans (ih.cons t)

theorem mem_uniqueUsers {df : List Row} {x : ℕ} :
    x ∈ uniqueUsers df ↔ x ∈ df.map Row.user := by
  rw [uniqueUsers, mem_pdUnique]
  exact ((sortByUser_perm df).map Row.user).mem_iff

theorem mem_uniqueItems {df : List Row} {x : ℕ} :
    x ∈ uniqueItems df ↔ x ∈ df.map Row.item := by
  rw [uniqueItems, mem_pdUnique]
  exact ((sortByUser_perm df).map Row.item).mem_iff

theorem nodup_uniqueUsers (df : List Row) : (uniqueUsers df).Nodup := nodup_pdUnique _

theorem nodup_uniqueItems (df : List Row) : (uniqueItems df).Nodup := nodup_pdUnique _

/-! ### The forward and backward index maps -/

theorem map_users_lt {df : List Row} {x : ℕ} (hx : x ∈ df.map Row.user) :
    map_users df x < Nusers df :=
  List.indexOf_lt_length.2 (mem_uniqueUsers.2 hx)

theorem map_items_lt {df : List Row} {x : ℕ} (hx : x ∈ df.map Row.item) :
    map_items df x < Nitems df :=
  List.indexOf_lt_length.2 (mem_uniqueItems.2 hx)

theorem map_back_users_map_users {df : List Row} {x : ℕ} (hx : x ∈ df.map Row.user) :
    map_back_users df (map_users df x) = some x := by
  rw [map_back_users, map_users, ← List.get?_eq_getElem?]
  exact List.indexOf_get? (mem_uniqueUsers.2 hx)

theorem map_back_items_map_items {df : List Row} {x : ℕ} (hx : x ∈ df.map Row.item) :
    map_back_items df (map_items df x) = some x := by
  rw [map_back_items, map_items, ← List.get?_eq_getElem?]
  exact List.indexOf_get? (mem_uniqueItems.2 hx)

theorem map_users_inj {df : List Row} {x y : ℕ} (hx : x ∈ df.map Row.user)
    (hy : y ∈ df.map Row.user) (h : map_users df x = map_users df y) : x = y :=
  (List.indexOf_inj (mem_uniqueUsers.2 hx) (mem_uniqueUsers.2 hy)).1 h

theorem map_items_inj {df : List Row} {x y : ℕ} (hx : x ∈ df.map Row.item)
    (hy : y ∈ df.map Row.item) (h : map_items df x = map_items df y) : x = y :=
  (List.indexOf_inj (mem_uniqueItems.2 hx) (mem_uniqueItems.2 hy)).1 h

theorem map_users_surj {df : List Row} {j : ℕ} (hj : j < Nusers df) :
    ∃ x, x ∈ df.map Row.user ∧ map_users df x = j := by
  refine ⟨(uniqueUsers df)[j], mem_uniqueUsers.1 (List.getElem_mem _), ?_⟩
  have h1 : map_users df (uniqueUsers df)[j] < Nusers df :=
    map_users_lt (mem_uniqueUsers.1 (List.getElem_mem _))
  have h2 : (uniqueUsers df)[map_users df (uniqueUsers df)[j]] = (uniqueUsers df)[j] :=
    List.getElem_indexOf h1
  exact (List.Nodup.getElem_inj_iff (nodup_uniqueUsers df)).1 h2

theorem map_items_surj {df : List Row} {j : ℕ} (hj : j < Nitems df) :
    ∃ x, x ∈ df.map Row.item ∧ map_items df x = j := by
  refine ⟨(uniqueItems df)[j], mem_uniqueItems.1 (List.getElem_mem _), ?_⟩
  have h1 : map_items df (uniqueItems df)[j] < Nitems df :=
    map_items_lt (mem_uniqueItems.1 (List.getElem_mem _))
  have h2 : (uniqueItems df)[map_items df (uniqueItems df)[j]] = (uniqueItems df)[j] :=
    List.getElem_indexOf h1
  exact (List.Nodup.getElem_inj_iff (nodup_uniqueItems df)).1 h2

theorem Nusers_eq_card (df : List Row) :
    Nusers df = (df.map Row.user).toFinset.card := by
  rw [Nusers, ← List.toFinset_card_of_nodup (nodup_uniqueUsers df)]
  congr 1
  ext x
  simp [List.mem_toFinset, mem_uniqueUsers]

theorem Nitems_eq_card (df : List Row) :
    Nitems df = (df.map Row.item).toFinset.card := by
  rw [Nitems, ← List.toFinset_card_of_nodup (nodup_uniqueItems df)]
  congr 1
  ext x
  simp [List.mem_toFinset, mem_uniqueItems]

theorem map_back_users_eq_some {df : List Row} {u x : ℕ}
    (h : map_back_users df u = some x) : x ∈ df.map Row.user ∧ map_users df x = u := by
  rw [map_back_users] at h
  rcases List.getElem?_eq_some_iff.1 h with ⟨hu, hx⟩
  constructor
  · exact mem_uniqueUsers.1 (hx ▸ List.getElem_mem hu)
  · have h1 : map_users df (uniqueUsers df)[u] < Nusers df :=
      map_users_lt (mem_uniqueUsers.1 (List.getElem_mem _))
    have h2 : (uniqueUsers df)[map_users df (uniqueUsers df)[u]] = (uniqueUsers df)[u] :=
      List.getElem_indexOf h1
    have := (List.Nodup.getElem_inj_iff (nodup_uniqueUsers df)).1 h2
    rw [← hx]
    exact this

theorem map_back_items_eq_some {df : List Row} {u x : ℕ}
    (h : map_back_items df u = some x) : x ∈ df.map Row.item ∧ map_items df x = u := by
  rw [map_back_items] at h
  rcases List.getElem?_eq_some_iff.1 h with ⟨hu, hx⟩
  constructor
  · exact mem_uniqueItems.1 (hx ▸ List.getElem_mem hu)
  · have h1 : map_items df (uniqueItems df)[u] < Nitems df :=
      map_items_lt (mem_uniqueItems.1 (List.getElem_mem _))
    have h2 : (uniqueItems df)[map_items df (uniqueItems df)[u]] = (uniqueItems df)[u] :=
      List.getElem_indexOf h1
    have := (List.Nodup.getElem_inj_iff (nodup_uniqueItems df)).1 h2
    rw [← hx]
    exact this

/-! ### The affinity matrix -/

/-- The coordinate-aggregation cell value is order-insensitive: the same sum
is obtained over the unsorted dataframe. -/
theorem gen_affinity_core_unsorted (df : List Row) (u i : ℕ) :
    gen_affinity_core df u i =
      ((df.filter
        (fun t => map_users df t.user == u && map_items df t.item == i)).map Row.rating).sum := by
  exact List.Perm.sum_eq (((sortByUser_perm df).filter _).map Row.rating)

/-- Rows with the same `(user, item)` pair as a member of a pair-nodup list
are exactly that member. -/
theorem filter_eq_singleton_of_pairs_nodup {l : List Row} {t : Row}
    (hnd : (l.map (fun s => (s.user, s.item))).Nodup) (ht : t ∈ l)
    {p : Row → Bool} (hp : ∀ s ∈ l, p s = true ↔ s.user = t.user ∧ s.item = t.item) :
    l.filter p = [t] := by
  induction l with
  | nil => cases ht
  | cons h rest ih =>
    rw [List.map_cons, List.nodup_cons] at hnd
    by_cases hph : p h = true
    · have hpair := (hp h (List.mem_cons_self _ _)).1 hph
      have hth : t = h := by
        rcases List.mem_cons.1 ht with rfl | htr
        · rfl
        · exact absurd (List.mem_map.2 ⟨t, htr, by rw [hpair.1, hpair.2]⟩) hnd.1
      have hrest : rest.filter p = [] := by
        rw [List.filter_eq_nil_iff]
        intro s hs hps
        have := (hp s (List.mem_cons_of_mem _ hs)).1 hps
        exact hnd.1 (List.mem_map.2 ⟨s, hs, by rw [this.1, this.2, ← hth]⟩)
      rw [List.filter_cons_of_pos hph, hrest, hth]
    · have hth : t ∈ rest := by
        rcases List.mem_cons.1 ht with rfl | htr
        · exact absurd ((hp t (List.mem_cons_self _ _)).2 ⟨rfl, rfl⟩) hph
        · exact htr
      rw [List.filter_cons_of_neg hph]
      exact ih hnd.2 hth (fun s hs => hp s (List.mem_cons_of_mem _ hs))

/-- A matrix cell with no contributing dataframe row is zero. -/
theorem gen_affinity_core_eq_zero {df : List Row} {u i : ℕ}
    (h : ∀ t ∈ df, ¬(map_users df t.user = u ∧ map_items df t.item = i)) :
    gen_affinity_core df u i = 0 := by
  rw [gen_affinity_core]
  have : (sortByUser df).filter
      (fun t => map_users df t.user == u && map_items df t.item == i) = [] := by
    rw [List.filter_eq_nil_iff]
    intro t htm hpt
    rw [Bool.and_eq_true, beq_iff_eq, beq_iff_eq] at hpt
    exact h t ((sortByUser_perm df).mem_iff.1 htm) hpt
  rw [this]; rfl

/-- A non-zero matrix cell has a contributing dataframe row. -/
theorem exists_row_of_ne_zero {df : List Row} {u i : ℕ}
    (h : gen_affinity_core df u i ≠ 0) :
    ∃ t ∈ df, map_users df t.user = u ∧ map_items df t.item = i := by
  by_contra hc
  push_neg at hc
  exact h (gen_affinity_core_eq_zero (by simpa using hc))

/-- `DupFree df`: no two rows of the table share a `(user, item)` pair. -/
def DupFree (df : List Row) : Prop := (df.map (fun t => (t.user, t.item))).Nodup

instance (df : List Row) : Decidable (DupFree df) := by
  rw [DupFree]; infer_instance

/-- In a duplicate-free table, the cell a row maps to holds exactly that
row's rating. -/
theorem gen_affinity_core_of_mem {df : List Row} (hdf : DupFree df) {t : Row}
    (ht : t ∈ df) :
    gen_affinity_core df (map_users df t.user) (map_items df t.item) = t.rating := by
  rw [gen_affinity_core]
  have hnd : ((sortByUser df).map (fun s => (s.user, s.item))).Nodup :=
    ((sortByUser_perm df).map _).nodup_iff.2 hdf
  have hts : t ∈ sortByUser df := (sortByUser_perm df).mem_iff.2 ht
  have huser : t.user ∈ df.map Row.user := List.mem_map.2 ⟨t, ht, rfl⟩
  have hitem : t.item ∈ df.map Row.item := List.mem_map.2 ⟨t, ht, rfl⟩
  rw [filter_eq_singleton_of_pairs_nodup hnd hts]
  · simp
  · intro s hs
    rw [Bool.and_eq_true, beq_iff_eq, beq_iff_eq]
    have hsuser : s.user ∈ df.map Row.user :=
      List.mem_map.2 ⟨s, (sortByUser_perm df).mem_iff.1 hs, rfl⟩
    have hsitem : s.item ∈ df.map Row.item :=
      List.mem_map.2 ⟨s, (sortByUser_perm df).mem_iff.1 hs, rfl⟩
    constructor
    · rintro ⟨h1, h2⟩
      exact ⟨map_users_inj hsuser huser h1, map_items_inj hsitem hitem h2⟩
    · rintro ⟨h1, h2⟩
      rw [h1, h2]
      exact ⟨rfl, rfl⟩

/-! ### Non-zero index lists and `map_back_sparse` -/

theorem mem_rowNonzeroL {row : ℕ → ℚ} {n i : ℕ} :
    i ∈ rowNonzeroL row n ↔ i < n ∧ row i ≠ 0 := by
  rw [rowNonzeroL, List.mem_filter, List.mem_range]
  simp

theorem nodup_rowNonzeroL (row : ℕ → ℚ) (n : ℕ) : (rowNonzeroL row n).Nodup :=
  (List.nodup_range n).filter _

theorem rowNonzeroL_toFinset (X : ℕ → ℕ → ℚ) (n u : ℕ) :
    (rowNonzeroL (X u) n).toFinset = nzSet X n u := by
  ext i
  rw [List.mem_toFinset, mem_rowNonzeroL, nzSet, Finset.mem_filter, Finset.mem_range]

theorem card_nzSet (X : ℕ → ℕ → ℚ) (n u : ℕ) :
    (nzSet X n u).card = ratedOf X n u := by
  rw [← rowNonzeroL_toFinset, List.toFinset_card_of_nodup (nodup_rowNonzeroL _ _), ratedOf]

theorem mem_map_back_sparse {X : ℕ → ℕ → ℚ} {m n : ℕ}
    {backU backI : ℕ → Option ℕ} {z : Option ℕ × Option ℕ × ℚ} :
    z ∈ map_back_sparse X m n backU backI ↔
      ∃ u i, u < m ∧ i < n ∧ X u i ≠ 0 ∧ z = (backU u, backI i, X u i) := by
  rw [map_back_sparse, List.mem_flatMap]
  constructor
  · rintro ⟨u, hu, hz⟩
    rcases List.mem_map.1 hz with ⟨i, hi, rfl⟩
    rcases mem_rowNonzeroL.1 hi with ⟨hin, hnz⟩
    exact ⟨u, i, List.mem_range.1 hu, hin, hnz, rfl⟩
  · rintro ⟨u, i, hu, hin, hnz, rfl⟩
    exact ⟨u, List.mem_range.2 hu, List.mem_map.2 ⟨i, mem_rowNonzeroL.2 ⟨hin, hnz⟩, rfl⟩⟩

/-! ### The sampling loop -/

theorem pyChoice_ok_mem {l : List ℕ} {g : PyRandom} {s : ℕ} {g1 : PyRandom}
    (h : pyChoice l g = .ok (s, g1)) : s ∈ l := by
  cases l with
  | nil => simp [pyChoice] at h
  | cons a rest =>
    rw [pyChoice] at h
    cases h
    have hk : (randbelow g (a :: rest).length).1 < (a :: rest).length :=
      Nat.mod_lt _ (by simp)
    rw [List.getD_eq_getElem?_getD, List.getElem?_eq_getElem hk]
    exact List.getElem_mem hk

theorem pyRemove_ok {l : List ℕ} {x : ℕ} {l' : List ℕ}
    (h : pyRemove l x = .ok l') : l' = l.erase x := by
  rw [pyRemove] at h
  by_cases hx : x ∈ l
  · rw [if_pos hx] at h; cases h; rfl
  · rw [if_neg hx] at h; cases h

theorem sampleLoop_ok_perm (k : ℕ) :
    ∀ (idx acc : List ℕ) (g : PyRandom) {idxF idxT : List ℕ} {g' : PyRandom},
      sampleLoop k idx acc g = .ok (idxF, idxT, g') → (idxF ++ idxT).Perm (idx ++ acc) := by
  induction k with
  | zero =>
    intro idx acc g idxF idxT g' h
    rw [sampleLoop] at h
    cases h
    exact List.Perm.refl _
  | succ k ih =>
    intro idx acc g idxF idxT g' h
    rw [sampleLoop] at h
    cases hc : pyChoice idx g with
    | error e => rw [hc] at h; simp [Bind.bind, Except.bind] at h
    | ok p =>
      obtain ⟨s, g1⟩ := p
      rw [hc] at h
      simp only [Bind.bind, Except.bind] at h
      cases hr : pyRemove idx s with
      | error e => rw [hr] at h; simp [Except.bind] at h
      | ok idx' =>
        rw [hr] at h
        simp only [Except.bind] at h
        have hperm := ih idx' (acc ++ [s]) g1 h
        have hs : s ∈ idx := pyChoice_ok_mem hc
        have hidx' : idx' = idx.erase s := pyRemove_ok hr
        subst hidx'
        refine hperm.trans ?_
        have e1 : idx.erase s ++ (acc ++ [s]) = (idx.erase s ++ acc) ++ [s] :=
          (List.append_assoc _ _ _).symm
        rw [e1]
        exact (List.perm_append_singleton s _).trans
          (List.Perm.append_right acc (List.perm_cons_erase hs).symm)

theorem sampleLoop_ok_of_le (k : ℕ) :
    ∀ (idx acc : List ℕ) (g : PyRandom), k ≤ idx.length →
      ∃ idxF idxT g', sampleLoop k idx acc g = .ok (idxF, idxT, g') := by
  induction k with
  | zero =>
    intro idx acc g _
    exact ⟨idx, acc, g, rfl⟩
  | succ k ih =>
    intro idx acc g hk
    cases idx with
    | nil => cases hk
    | cons a rest =>
      have hchoice : pyChoice (a :: rest) g =
          .ok ((a :: rest).getD (randbelow g (a :: rest).length).1 0,
               (randbelow g (a :: rest).length).2) := rfl
      have hs : (a :: rest).getD (randbelow g (a :: rest).length).1 0 ∈ a :: rest :=
        pyChoice_ok_mem hchoice
      have hrem : pyRemove (a :: rest) ((a :: rest).getD (randbelow g (a :: rest).length).1 0) =
          .ok ((a :: rest).erase ((a :: rest).getD (randbelow g (a :: rest).length).1 0)) := by
        rw [pyRemove, if_pos hs]
      have hlen : k ≤ ((a :: rest).erase
          ((a :: rest).getD (randbelow g (a :: rest).length).1 0)).length := by
        rw [List.length_erase_of_mem hs]
        exact Nat.le_pred_of_lt (Nat.lt_of_succ_le hk)
      obtain ⟨idxF, idxT, g', hres⟩ := ih _ (acc ++ [(a :: rest).getD (randbelow g (a :: rest).length).1 0])
        (randbelow g (a :: rest).length).2 hlen
      refine ⟨idxF, idxT, g', ?_⟩
      rw [sampleLoop, hchoice]
      simp only [Bind.bind, Except.bind]
      rw [hrem]
      exact hres

/-! ### The test-cut and per-user quota arithmetic -/

theorem pyTrunc_eq_floor {q : ℚ} (hq : 0 ≤ q) : pyTrunc q = ⌊q⌋ := by
  rw [pyTrunc, Rat.floor_def]
  exact Int.tdiv_eq_ediv (Rat.num_nonneg.2 hq) (Int.ofNat_nonneg _)

theorem test_cut_eq_floor {ratio : ℚ} (h : ratio ≤ 1) :
    test_cut ratio = ⌊(1 - ratio) * 100⌋ :=
  pyTrunc_eq_floor (mul_nonneg (by linarith) (by norm_num))

theorem test_cut_nonneg {ratio : ℚ} (h : ratio ≤ 1) : 0 ≤ test_cut ratio := by
  rw [test_cut_eq_floor h]
  exact Int.floor_nonneg.2 (mul_nonneg (by linarith) (by norm_num))

theorem test_cut_le_99 {ratio : ℚ} (h0 : 0 < ratio) (h1 : ratio ≤ 1) :
    test_cut ratio ≤ 99 := by
  rw [test_cut_eq_floor h1]
  have h2 : (1 - ratio) * 100 < 100 := by nlinarith
  have h3 : ⌊(1 - ratio) * 100⌋ < 100 := Int.floor_lt.2 (by exact_mod_cast h2)
  omega

theorem tstCount_eq_natDiv (rated : ℕ) {ratio : ℚ} (h : ratio ≤ 1) :
    tstCount rated ratio = rated * (test_cut ratio).toNat / 100 := by
  have h0 : 0 ≤ test_cut ratio := test_cut_nonneg h
  rcases Int.eq_ofNat_of_zero_le h0 with ⟨t, ht⟩
  rw [tstCount, Int.fdiv_eq_ediv _ (by norm_num), ht]
  rw [show ((rated : ℤ) * (t : ℤ)) = ((rated * t : ℕ) : ℤ) from by push_cast; ring]
  simp only [Int.toNat_natCast]
  omega

theorem tstCount_le_rated {ratio : ℚ} (h0 : 0 < ratio) (h1 : ratio < 1) (rated : ℕ) :
    tstCount rated ratio ≤ rated := by
  rw [tstCount_eq_natDiv rated h1.le]
  have ht : (test_cut ratio).toNat ≤ 99 := by
    have := test_cut_le_99 h0 h1.le
    omega
  calc rated * (test_cut ratio).toNat / 100
      ≤ rated * 100 / 100 := Nat.div_le_div_right (Nat.mul_le_mul_left _ (by omega))
    _ = rated := Nat.mul_div_cancel _ (by norm_num)

theorem tstCount_lt_rated {ratio : ℚ} (h0 : 0 < ratio) (h1 : ratio < 1)
    {rated : ℕ} (hr : 0 < rated) : tstCount rated ratio < rated := by
  rw [tstCount_eq_natDiv rated h1.le]
  have ht : (test_cut ratio).toNat ≤ 99 := by
    have := test_cut_le_99 h0 h1.le
    omega
  rw [Nat.div_lt_iff_lt_mul (by norm_num : 0 < 100)]
  calc rated * (test_cut ratio).toNat
      ≤ rated * 99 := Nat.mul_le_mul_left _ ht
    _ < rated * 100 := by
        have := Nat.mul_lt_mul_of_lt_of_le (Nat.lt_succ_self 99) (Nat.le_refl rated)
        omega

/-! ### The per-user split loop -/

theorem storeGet_set_same {st : Store} {aid : ℕ} (h : aid < st.length) (A : ℕ → ℕ → ℚ) :
    storeGet (storeSet st aid A) aid = A := by
  rw [storeGet, storeSet, List.getD_eq_getElem?_getD, List.getElem?_set_self h]
  rfl

theorem storeGet_set_ne {st : Store} {aid aid' : ℕ} (h : aid ≠ aid') (A : ℕ → ℕ → ℚ) :
    storeGet (storeSet st aid A) aid' = storeGet st aid' := by
  rw [storeGet, storeGet, storeSet, List.getD_eq_getElem?_getD,
    List.getD_eq_getElem?_getD, List.getElem?_set_ne h]

theorem length_storeSet (st : Store) (aid : ℕ) (A : ℕ → ℕ → ℚ) :
    (storeSet st aid A).length = st.length := List.length_set st aid A

theorem splitUserLoop_ok_spec (n : ℕ) (tst rated : ℕ → ℕ) :
    ∀ (us : List ℕ) (st : Store) (g : PyRandom) {st' : Store} {g' : PyRandom},
      us.Nodup → 2 < st.length →
      splitUserLoop n tst rated us st g = .ok (st', g') →
      st'.length = st.length ∧
      (∀ aid, aid ≠ 1 → aid ≠ 2 → ∀ u i, storeGet st' aid u i = storeGet st aid u i) ∧
      (∀ u, u ∉ us → ∀ i,
        storeGet st' 1 u i = storeGet st 1 u i ∧ storeGet st' 2 u i = storeGet st 2 u i) ∧
      (∀ u ∈ us, ∃ gIn gOut idxF idxT,
        sampleLoop (tst u) (rowNonzeroL (storeGet st 1 u) n) [] gIn = .ok (idxF, idxT, gOut) ∧
        (∀ i, storeGet st' 1 u i = if i ∈ idxT then 0 else storeGet st 1 u i) ∧
        (∀ i, storeGet st' 2 u i = if i ∈ idxF then 0 else storeGet st 2 u i)) := by
  intro us
  induction us with
  | nil =>
    intro st g st' g' _ _ h
    rw [splitUserLoop] at h
    cases h
    refine ⟨rfl, fun _ _ _ _ _ => rfl, fun _ _ _ => ⟨rfl, rfl⟩, fun u hu => absurd hu (by simp)⟩
  | cons u us ih =>
    intro st g st' g' hnd hlen h
    have hu_not : u ∉ us := (List.nodup_cons.1 hnd).1
    have hnd' : us.Nodup := (List.nodup_cons.1 hnd).2
    rw [splitUserLoop] at h
    cases hs : sampleLoop (tst u) (rowNonzeroL (storeGet st 1 u) n) [] g with
    | error e => rw [hs] at h; simp [Bind.bind, Except.bind] at h
    | ok trip =>
      obtain ⟨idxF, idxT, g1⟩ := trip
      rw [hs] at h
      simp only [Bind.bind, Except.bind] at h
      set st1 := storeSet st 1 (zeroCols (storeGet st 1) u idxT) with hst1
      set st2 := storeSet st1 2 (zeroCols (storeGet st1 2) u idxF) with hst2
      have hlen1 : st1.length = st.length := length_storeSet _ _ _
      have hlen2 : st2.length = st.length := by
        rw [hst2, length_storeSet, hlen1]
      have hT1 : ∀ u' i, storeGet st2 1 u' i =
          if u' = u ∧ i ∈ idxT then 0 else storeGet st 1 u' i := by
        intro u' i
        rw [hst2, storeGet_set_ne (by norm_num), hst1,
          storeGet_set_same (by omega) _]
        rfl
      have hT2 : ∀ u' i, storeGet st2 2 u' i =
          if u' = u ∧ i ∈ idxF then 0 else storeGet st 2 u' i := by
        intro u' i
        rw [hst2, storeGet_set_same (by omega) _]
        rw [zeroCols, hst1, storeGet_set_ne (by norm_num)]
      have hT0 : ∀ aid, aid ≠ 1 → aid ≠ 2 → ∀ u' i,
          storeGet st2 aid u' i = storeGet st aid u' i := by
        intro aid h1 h2 u' i
        rw [hst2, storeGet_set_ne (Ne.symm h2), hst1, storeGet_set_ne (Ne.symm h1)]
      by_cases hcond : ratedOf (storeGet st2 1) n u + ratedOf (storeGet st2 2) n u = rated u
      · rw [if_pos hcond] at h
        obtain ⟨ihlen, ih0, ih3, ih4⟩ := ih st2 g1 hnd' (by omega) h
        refine ⟨by rw [ihlen, hlen2], ?_, ?_, ?_⟩
        · intro aid h1 h2 u' i
          rw [ih0 aid h1 h2, hT0 aid h1 h2]
        · intro u' hu' i
          have hne : u' ≠ u := fun he => hu' (he ▸ List.mem_cons_self _ _)
          have hnm : u' ∉ us := fun hm => hu' (List.mem_cons_of_mem _ hm)
          obtain ⟨e1, e2⟩ := ih3 u' hnm i
          rw [e1, e2, hT1, hT2]
          simp [hne]
        · intro u' hu'
          rcases List.mem_cons.1 hu' with rfl | hmem
          · refine ⟨g, g1, idxF, idxT, hs, ?_, ?_⟩
            · intro i
              rw [(ih3 u' hu_not i).1, hT1]
              simp
            · intro i
              rw [(ih3 u' hu_not i).2, hT2]
              simp
          · have hne : u' ≠ u := fun he => hu_not (he ▸ hmem)
            have hrow1 : storeGet st2 1 u' = storeGet st 1 u' := by
              funext i
              rw [hT1]
              simp [hne]
            have hrow2 : storeGet st2 2 u' = storeGet st 2 u' := by
              funext i
              rw [hT2]
              simp [hne]
            obtain ⟨gIn, gOut, iF, iT, hsamp, hr1, hr2⟩ := ih4 u' hmem
            refine ⟨gIn, gOut, iF, iT, ?_, ?_, ?_⟩
            · rw [← hrow1]
              exact hsamp
            · intro i
              rw [hr1 i, hrow1]
            · intro i
              rw [hr2 i, hrow2]
      · rw [if_neg hcond] at h
        cases h

/-! ### Unfolding a successful `stratified_split` -/

theorem isOk_iff_exists {α : Type} {e : Except String α} :
    e.isOk = true ↔ ∃ a, e = .ok a := by
  cases e with
  | error s => simp [Except.isOk, Except.toBool]
  | ok a => simp [Except.isOk, Except.toBool]

theorem gen_affinity_matrixE_ok {df : List Row} {AM : ℕ → ℕ → ℚ}
    (h : gen_affinity_matrixE df = .ok AM) :
    AM = gen_affinity_core df ∧ Nusers df * Nitems df ≠ 0 := by
  rw [gen_affinity_matrixE] at h
  by_cases hz : Nusers df * Nitems df = 0
  · rw [if_pos hz] at h; cases h
  · rw [if_neg hz] at h; cases h; exact ⟨rfl, hz⟩

theorem stratified_split_ok {df : List Row} {ratio : ℚ} {seed : ℕ} {g0 : PyRandom}
    {out : SplitOut} (h : stratified_split df ratio seed g0 = .ok out) :
    ∃ st' g',
      splitUserLoop (Nitems df) (tstF df ratio) (ratedF df) (List.range (Nusers df))
        [gen_affinity_core df, gen_affinity_core df, gen_affinity_core df] g0
        = .ok (st', g') ∧
      out.store = st' ∧ out.m = Nusers df ∧ out.n = Nitems df ∧ 0 < Nusers df := by
  rw [stratified_split] at h
  split at h
  · cases h
  · next AM heq =>
    obtain ⟨hAM, _⟩ := gen_affinity_matrixE_ok heq
    subst hAM
    split at h
    · cases h
    · next st' g' heq2 =>
      split at h
      · cases h
      · split at h
        · cases h
        · next hm _ =>
          cases h
          exact ⟨st', g', heq2, rfl, rfl, rfl, Nat.pos_of_ne_zero hm⟩

/-- The shared per-row consequence of a successful split: for each user row
there are sampled index lists `idxF`, `idxT` partitioning the non-zero
columns, with the train row zeroed on `idxT` and the test row zeroed on
`idxF`. -/
theorem split_row_shape {df : List Row} {ratio : ℚ} {seed : ℕ} {g0 : PyRandom}
    (hok : (stratified_split df ratio seed g0).isOk = true) {u : ℕ} (hu : u < Nusers df) :
    ∃ idxF idxT : List ℕ,
      ((idxF ++ idxT).Perm (rowNonzeroL (gen_affinity_core df u) (Nitems df))) ∧
      (∀ i, trainM df ratio seed g0 u i =
        if i ∈ idxT then 0 else gen_affinity_core df u i) ∧
      (∀ i, testM df ratio seed g0 u i =
        if i ∈ idxF then 0 else gen_affinity_core df u i) := by
  obtain ⟨out, hout⟩ := isOk_iff_exists.1 hok
  obtain ⟨st', g', hL, hstore, _, _, _⟩ := stratified_split_ok hout
  have hres : splitResult df ratio seed g0 = out := by
    rw [splitResult, hout]
    rfl
  obtain ⟨_, _, _, h4⟩ := splitUserLoop_ok_spec (Nitems df) (tstF df ratio) (ratedF df)
    (List.range (Nusers df))
    [gen_affinity_core df, gen_affinity_core df, gen_affinity_core df] g0
    (List.nodup_range _) (by simp) hL
  obtain ⟨gIn, gOut, idxF, idxT, hsamp, hr1, hr2⟩ := h4 u (List.mem_range.2 hu)
  have hperm : (idxF ++ idxT).Perm (rowNonzeroL (gen_affinity_core df u) (Nitems df)) := by
    have := sampleLoop_ok_perm _ _ _ _ hsamp
    rwa [List.append_nil] at this
  refine ⟨idxF, idxT, hperm, ?_, ?_⟩
  · intro i
    rw [trainM, hres, hstore]
    exact hr1 i
  · intro i
    rw [testM, hres, hstore]
    exact hr2 i

theorem split_row_sets {df : List Row} {ratio : ℚ} {seed : ℕ} {g0 : PyRandom}
    (hok : (stratified_split df ratio seed g0).isOk = true) {u : ℕ} (hu : u < Nusers df) :
    ∃ F T : Finset ℕ, Disjoint F T ∧
      F ∪ T = nzSet (gen_affinity_core df) (Nitems df) u ∧
      nzSet (trainM df ratio seed g0) (Nitems df) u = F ∧
      nzSet (testM df ratio seed g0) (Nitems df) u = T := by
  obtain ⟨idxF, idxT, hperm, htr, hts⟩ := split_row_shape hok hu
  have hnd : (idxF ++ idxT).Nodup :=
    hperm.nodup_iff.2 (nodup_rowNonzeroL (gen_affinity_core df u) (Nitems df))
  have hld : idxF.Disjoint idxT := List.disjoint_of_nodup_append hnd
  have hsubF : ∀ i ∈ idxF, i ∈ rowNonzeroL (gen_affinity_core df u) (Nitems df) :=
    fun i hi => hperm.subset (List.mem_append_left _ hi)
  have hsubT : ∀ i ∈ idxT, i ∈ rowNonzeroL (gen_affinity_core df u) (Nitems df) :=
    fun i hi => hperm.subset (List.mem_append_right _ hi)
  refine ⟨idxF.toFinset, idxT.toFinset, ?_, ?_, ?_, ?_⟩
  · refine Finset.disjoint_left.2 fun i hiF hiT => ?_
    exact hld (List.mem_toFinset.1 hiF) (List.mem_toFinset.1 hiT)
  · rw [← List.toFinset_append]
    ext i
    rw [List.mem_toFinset, ← rowNonzeroL_toFinset, List.mem_toFinset]
    exact hperm.mem_iff
  · ext i
    rw [nzSet, Finset.mem_filter, Finset.mem_range, List.mem_toFinset, htr i]
    constructor
    · rintro ⟨hin, hne⟩
      by_cases hiT : i ∈ idxT
      · rw [if_pos hiT] at hne; exact absurd rfl hne
      · rw [if_neg hiT] at hne
        have : i ∈ idxF ++ idxT :=
          hperm.mem_iff.2 (mem_rowNonzeroL.2 ⟨hin, hne⟩)
        rcases List.mem_append.1 this with h | h
        · exact h
        · exact absurd h hiT
    · intro hiF
      have hi0 := mem_rowNonzeroL.1 (hsubF i hiF)
      have hiT : i ∉ idxT := fun hiT => hld hiF hiT
      rw [if_neg hiT]
      exact hi0
  · ext i
    rw [nzSet, Finset.mem_filter, Finset.mem_range, List.mem_toFinset, hts i]
    constructor
    · rintro ⟨hin, hne⟩
      by_cases hiF : i ∈ idxF
      · rw [if_pos hiF] at hne; exact absurd rfl hne
      · rw [if_neg hiF] at hne
        have : i ∈ idxF ++ idxT :=
          hperm.mem_iff.2 (mem_rowNonzeroL.2 ⟨hin, hne⟩)
        rcases List.mem_append.1 this with h | h
        · exact absurd h hiF
        · exact h
    · intro hiT
      have hi0 := mem_rowNonzeroL.1 (hsubT i hiT)
      have hiF : i ∉ idxF := fun hiF => hld hiF hiT
      rw [if_neg hiF]
      exact hi0

/-! ### Claim theorems -/

/-- C2: for every input table and every user row `u` of the matrix, a
`(train, test)` pair returned by `stratified_split` has disjoint non-zero
column sets per row, their union is the non-zero column set of the
affinity-matrix row, and hence the two non-zero counts add up to the
original row's non-zero count. -/
theorem C2_split_row_invariants (df : List Row) (ratio : ℚ) (seed : ℕ) (g0 : PyRandom)
    (hok : (stratified_split df ratio seed g0).isOk = true) :
    ∀ u, u < Nusers df →
      Disjoint (nzSet (trainM df ratio seed g0) (Nitems df) u)
        (nzSet (testM df ratio seed g0) (Nitems df) u) ∧
      nzSet (trainM df ratio seed g0) (Nitems df) u ∪
        nzSet (testM df ratio seed g0) (Nitems df) u
        = nzSet (gen_affinity_core df) (Nitems df) u ∧
      (nzSet (trainM df ratio seed g0) (Nitems df) u).card +
        (nzSet (testM df ratio seed g0) (Nitems df) u).card
        = (nzSet (gen_affinity_core df) (Nitems df) u).card := by
  intro u hu
  obtain ⟨F, T, hdisj, hunion, hF, hT⟩ := split_row_sets hok hu
  refine ⟨hF ▸ hT ▸ hdisj, by rw [hF, hT, hunion], ?_⟩
  rw [hF, hT, ← hunion, Finset.card_union_of_disjoint hdisj]

/-- C9: a successful `stratified_split` leaves the source affinity matrix
(store address 0) with exactly the contents produced by the matrix
builder — the per-row zeroing touches only the two fresh copies at
addresses 1 and 2 — and the final store still holds exactly the three
separately addressed arrays. -/
theorem C9_source_matrix_not_mutated (df : List Row) (ratio : ℚ) (seed : ℕ)
    (g0 : PyRandom) (hok : (stratified_split df ratio seed g0).isOk = true) :
    (∀ u i, storeGet (splitResult df ratio seed g0).store 0 u i
      = gen_affinity_core df u i) ∧
    (splitResult df ratio seed g0).store.length = 3 ∧
    trainM df ratio seed g0 = storeGet (splitResult df ratio seed g0).store 1 ∧
    testM df ratio seed g0 = storeGet (splitResult df ratio seed g0).store 2 := by
  obtain ⟨out, hout⟩ := isOk_iff_exists.1 hok
  obtain ⟨st', g', hL, hstore, _, _, _⟩ := stratified_split_ok hout
  have hres : splitResult df ratio seed g0 = out := by
    rw [splitResult, hout]; rfl
  obtain ⟨hlen, h0, _, _⟩ := splitUserLoop_ok_spec (Nitems df) (tstF df ratio) (ratedF df)
    (List.range (Nusers df))
    [gen_affinity_core df, gen_affinity_core df, gen_affinity_core df] g0
    (List.nodup_range _) (by simp) hL
  refine ⟨?_, ?_, rfl, rfl⟩
  · intro u i
    rw [hres, hstore]
    exact h0 0 (by norm_num) (by norm_num) u i
  · rw [hres, hstore, hlen]
    rfl

/-- C10: for every ratio in `(0,1)` the per-row quota
`rated*int((1-r)*100)//100` never exceeds the number of rated items
(strictly fewer when the row is non-empty), so the sampling loop always
draws from a non-empty candidate list and removes only present elements:
its `IndexError`/`ValueError` branches are unreachable and it returns
successfully. -/
theorem C10_sampling_loop_safe (ratio : ℚ) (h0 : 0 < ratio) (h1 : ratio < 1)
    (row : ℕ → ℚ) (n : ℕ) (g : PyRandom) :
    tstCount (rowNonzeroL row n).length ratio ≤ (rowNonzeroL row n).length ∧
    (0 < (rowNonzeroL row n).length →
      tstCount (rowNonzeroL row n).length ratio < (rowNonzeroL row n).length) ∧
    (sampleLoop (tstCount (rowNonzeroL row n).length ratio)
      (rowNonzeroL row n) [] g).isOk = true := by
  refine ⟨tstCount_le_rated h0 h1 _, fun hr => tstCount_lt_rated h0 h1 hr, ?_⟩
  obtain ⟨idxF, idxT, g', hres⟩ :=
    sampleLoop_ok_of_le _ (rowNonzeroL row n) [] g (tstCount_le_rated h0 h1 _)
  rw [hres]
  rfl

/-- C6: for every ratio in `(0,1)`, the global test percentage is the
floor (truncation toward zero coincides with floor on the non-negative
value) of `(1-ratio)*100`, computed once, and each row's test count is
the floor of the rational `rated*test_cut/100`, i.e. integer floor
division. -/
theorem C6_test_cut_arithmetic (ratio : ℚ) (_h0 : 0 < ratio) (h1 : ratio < 1) :
    test_cut ratio = ⌊(1 - ratio) * 100⌋ ∧
    ∀ rated : ℕ, (tstCount rated ratio : ℤ)
      = ⌊((rated : ℚ) * ((test_cut ratio : ℤ) : ℚ)) / 100⌋ := by
  refine ⟨test_cut_eq_floor h1.le, fun rated => ?_⟩
  have htc : 0 ≤ test_cut ratio := test_cut_nonneg h1.le
  have hcast : ((rated : ℚ) * ((test_cut ratio : ℤ) : ℚ))
      = (((rated : ℤ) * test_cut ratio : ℤ) : ℚ) := by push_cast; ring
  rw [hcast, show (100 : ℚ) = ((100 : ℕ) : ℚ) from by norm_num,
    Rat.floor_intCast_div_natCast]
  rw [tstCount, Int.fdiv_eq_ediv _ (by norm_num)]
  exact Int.toNat_of_nonneg (Int.ediv_nonneg (by positivity) (by norm_num))

/-- C7: on each axis the forward map sends every observed raw identifier
into `[0, N)`, the backward map undoes it, the forward map is injective on
the observed identifiers and onto `[0, N)`, and `N` is the number of
distinct identifiers observed on that axis. -/
theorem C7_index_bijection (df : List Row) :
    ((∀ x ∈ df.map Row.user, map_back_users df (map_users df x) = some x) ∧
     (∀ x ∈ df.map Row.user, map_users df x < Nusers df) ∧
     (∀ x ∈ df.map Row.user, ∀ y ∈ df.map Row.user,
       map_users df x = map_users df y → x = y) ∧
     (∀ j, j < Nusers df → ∃ x ∈ df.map Row.user, map_users df x = j) ∧
     Nusers df = (df.map Row.user).toFinset.card) ∧
    ((∀ x ∈ df.map Row.item, map_back_items df (map_items df x) = some x) ∧
     (∀ x ∈ df.map Row.item, map_items df x < Nitems df) ∧
     (∀ x ∈ df.map Row.item, ∀ y ∈ df.map Row.item,
       map_items df x = map_items df y → x = y) ∧
     (∀ j, j < Nitems df → ∃ x ∈ df.map Row.item, map_items df x = j) ∧
     Nitems df = (df.map Row.item).toFinset.card) := by
  refine ⟨⟨?_, ?_, ?_, ?_, ?_⟩, ⟨?_, ?_, ?_, ?_, ?_⟩⟩
  · exact fun x hx => map_back_users_map_users hx
  · exact fun x hx => map_users_lt hx
  · exact fun x hx y hy h => map_users_inj hx hy h
  · intro j hj
    obtain ⟨x, hx, hxj⟩ := map_users_surj hj
    exact ⟨x, hx, hxj⟩
  · exact Nusers_eq_card df
  · exact fun x hx => map_back_items_map_items hx
  · exact fun x hx => map_items_lt hx
  · exact fun x hx y hy h => map_items_inj hx hy h
  · intro j hj
    obtain ⟨x, hx, hxj⟩ := map_items_surj hj
    exact ⟨x, hx, hxj⟩
  · exact Nitems_eq_card df

/-- C5: a cell of the affinity matrix is the sum of the ratings of all
table rows whose indexed coordinates land on it (coo-matrix duplicate
aggregation, not first- or last-write-wins); in particular the two rows
`(u1, i1, 5)` and `(u1, i1, 2)` produce the single cell value `7`. -/
theorem C5_duplicate_ratings_summed :
    (∀ (df : List Row) (u i : ℕ),
      gen_affinity_core df u i =
        ((df.filter
          (fun t => map_users df t.user == u && map_items df t.item == i)).map
            Row.rating).sum) ∧
    map_users [⟨1, 1, 5⟩, ⟨1, 1, 2⟩] 1 = 0 ∧
    map_items [⟨1, 1, 5⟩, ⟨1, 1, 2⟩] 1 = 0 ∧
    gen_affinity_core [⟨1, 1, 5⟩, ⟨1, 1, 2⟩] 0 0 = 7 := by
  refine ⟨?_, by decide, by decide, by decide⟩
  intro df u i
  exact gen_affinity_core_unsorted df u i

/-! ### Backward-map injectivity, for the round trip -/

theorem map_back_users_inj {df : List Row} {u u' : ℕ} (hu : u < Nusers df)
    (hu' : u' < Nusers df) (h : map_back_users df u = map_back_users df u') :
    u = u' := by
  rw [map_back_users, map_back_users, List.getElem?_eq_getElem hu,
    List.getElem?_eq_getElem hu'] at h
  exact (List.Nodup.getElem_inj_iff (nodup_uniqueUsers df)).1 (Option.some_injective _ h)

theorem map_back_items_inj {df : List Row} {i i' : ℕ} (hi : i < Nitems df)
    (hi' : i' < Nitems df) (h : map_back_items df i = map_back_items df i') :
    i = i' := by
  rw [map_back_items, map_back_items, List.getElem?_eq_getElem hi,
    List.getElem?_eq_getElem hi'] at h
  exact (List.Nodup.getElem_inj_iff (nodup_uniqueItems df)).1 (Option.some_injective _ h)

theorem nodup_map_back_output (df : List Row) (X : ℕ → ℕ → ℚ) :
    (map_back_sparse X (Nusers df) (Nitems df)
      (map_back_users df) (map_back_items df)).Nodup := by
  rw [map_back_sparse, List.nodup_flatMap]
  constructor
  · intro u hu
    refine List.Nodup.map_on ?_ (nodup_rowNonzeroL _ _)
    intro i hi i' hi' he
    have hin : i < Nitems df := (mem_rowNonzeroL.1 hi).1
    have hin' : i' < Nitems df := (mem_rowNonzeroL.1 hi').1
    have : map_back_items df i = map_back_items df i' := congrArg (fun z => z.2.1) he
    exact map_back_items_inj hin hin' this
  · refine List.Pairwise.imp_of_mem ?_ (List.pairwise_lt_range _)
    intro u u' hu hu' hlt z hz hz'
    rcases List.mem_map.1 hz with ⟨i, hi, rfl⟩
    rcases List.mem_map.1 hz' with ⟨i', hi', he⟩
    have h1 : map_back_users df u' = map_back_users df u :=
      congrArg (fun w => w.1) he
    have := map_back_users_inj (List.mem_range.1 hu') (List.mem_range.1 hu) h1
    omega

theorem nodup_triples {df : List Row} (hdf : DupFree df) :
    (df.map (fun t => ((some t.user : Option ℕ), (some t.item : Option ℕ), t.rating))).Nodup := by
  have hps : (df.map (fun t => ((some t.user : Option ℕ), (some t.item : Option ℕ)))).Nodup := by
    have he : df.map (fun t => ((some t.user : Option ℕ), (some t.item : Option ℕ)))
        = (df.map (fun t => (t.user, t.item))).map (fun p => (some p.1, some p.2)) := by
      rw [List.map_map]
      rfl
    rw [he]
    refine List.Nodup.map ?_ hdf
    intro p q h
    simp only [Prod.mk.injEq, Option.some.injEq] at h
    exact Prod.ext h.1 h.2
  have he2 : df.map (fun t => ((some t.user : Option ℕ), (some t.item : Option ℕ)))
      = (df.map (fun t => ((some t.user : Option ℕ), (some t.item : Option ℕ), t.rating))).map
        (fun z => (z.1, z.2.1)) := by
    rw [List.map_map]
    rfl
  rw [he2] at hps
  exact List.Nodup.of_map _ hps

/-- C8: on a duplicate-free table with non-zero ratings, `map_back_sparse`
applied to the matrix the pipeline built returns exactly the original
`(user, item, rating)` triples, as a multiset in the original identifier
space (hence as a set, independently of the table's row order). -/
theorem C8_round_trip (df : List Row) {AM : ℕ → ℕ → ℚ}
    (hAM : gen_affinity_matrixE df = .ok AM) (hdf : DupFree df)
    (hnz : ∀ t ∈ df, t.rating ≠ 0) :
    (map_back_sparse AM (Nusers df) (Nitems df) (map_back_users df)
      (map_back_items df)).Perm
      (df.map (fun t => ((some t.user : Option ℕ), (some t.item : Option ℕ), t.rating))) := by
  obtain ⟨hA, _⟩ := gen_affinity_matrixE_ok hAM
  subst hA
  refine (List.perm_ext_iff_of_nodup (nodup_map_back_output df _) (nodup_triples hdf)).2 ?_
  intro z
  constructor
  · intro hz
    rcases mem_map_back_sparse.1 hz with ⟨u, i, hu, hi, hne, rfl⟩
    obtain ⟨t, ht, htu, hti⟩ := exists_row_of_ne_zero hne
    have hcell : gen_affinity_core df u i = t.rating := by
      rw [← htu, ← hti]
      exact gen_affinity_core_of_mem hdf ht
    have hbu : map_back_users df u = some t.user := by
      rw [← htu]
      exact map_back_users_map_users (List.mem_map.2 ⟨t, ht, rfl⟩)
    have hbi : map_back_items df i = some t.item := by
      rw [← hti]
      exact map_back_items_map_items (List.mem_map.2 ⟨t, ht, rfl⟩)
    refine List.mem_map.2 ⟨t, ht, ?_⟩
    rw [hbu, hbi, hcell]
  · intro hz
    rcases List.mem_map.1 hz with ⟨t, ht, rfl⟩
    have hu : map_users df t.user < Nusers df :=
      map_users_lt (List.mem_map.2 ⟨t, ht, rfl⟩)
    have hi : map_items df t.item < Nitems df :=
      map_items_lt (List.mem_map.2 ⟨t, ht, rfl⟩)
    have hcell : gen_affinity_core df (map_users df t.user) (map_items df t.item)
        = t.rating := gen_affinity_core_of_mem hdf ht
    refine mem_map_back_sparse.2
      ⟨map_users df t.user, map_items df t.item, hu, hi, ?_, ?_⟩
    · rw [hcell]
      exact hnz t ht
    · rw [hcell, map_back_users_map_users (List.mem_map.2 ⟨t, ht, rfl⟩),
        map_back_items_map_items (List.mem_map.2 ⟨t, ht, rfl⟩)]

/-- C1 (code bug): the split's draws come from the ambient `random`-module
generator, which `np.random.seed(seed)` does not touch.  On the same table
and ratio, with the same seed, two different ambient generator states give
different train matrices, while two different seeds with the same ambient
state give identical matrices and output tables — so the result is
controlled by ambient state, not by the seed. -/
theorem C1_seed_does_not_control_sampling :
    (stratified_split [⟨1, 10, 5⟩, ⟨1, 20, 3⟩] (1/2) 42 ⟨fun _ => 0, 0⟩).isOk = true ∧
    (stratified_split [⟨1, 10, 5⟩, ⟨1, 20, 3⟩] (1/2) 42 ⟨fun _ => 1, 0⟩).isOk = true ∧
    trainM [⟨1, 10, 5⟩, ⟨1, 20, 3⟩] (1/2) 42 ⟨fun _ => 0, 0⟩ 0 0 = 0 ∧
    trainM [⟨1, 10, 5⟩, ⟨1, 20, 3⟩] (1/2) 42 ⟨fun _ => 1, 0⟩ 0 0 = 3 ∧
    (splitResult [⟨1, 10, 5⟩, ⟨1, 20, 3⟩] (1/2) 42 ⟨fun _ => 0, 0⟩).store
      = (splitResult [⟨1, 10, 5⟩, ⟨1, 20, 3⟩] (1/2) 7 ⟨fun _ => 0, 0⟩).store ∧
    (splitResult [⟨1, 10, 5⟩, ⟨1, 20, 3⟩] (1/2) 42 ⟨fun _ => 0, 0⟩).dfTrain
      = (splitResult [⟨1, 10, 5⟩, ⟨1, 20, 3⟩] (1/2) 7 ⟨fun _ => 0, 0⟩).dfTrain ∧
    (splitResult [⟨1, 10, 5⟩, ⟨1, 20, 3⟩] (1/2) 42 ⟨fun _ => 0, 0⟩).dfTest
      = (splitResult [⟨1, 10, 5⟩, ⟨1, 20, 3⟩] (1/2) 7 ⟨fun _ => 0, 0⟩).dfTest :=
  ⟨by decide, by decide, by decide, by decide, rfl, rfl, rfl⟩

/-- C3 (code bug): the degenerate inputs the spec requires to succeed make
the code raise.  An empty table reaches the sparsity statistic `0/0 = nan`
and the `'%d'` formatting of line 169 raises; a one-row table with ratio
`0.75` makes every per-user quota zero, so `sub_el` is never bound and the
`del idx, sub_el, idx_tst` of line 254 raises `NameError`. -/
theorem C3_degenerate_inputs_raise :
    stratified_split ([] : List Row) (3/4) 42 ⟨fun _ => 0, 0⟩
      = .error "ValueError: cannot convert float NaN to integer" ∧
    stratified_split [⟨1, 1, 5⟩] (3/4) 42 ⟨fun _ => 0, 0⟩
      = .error "NameError: name sub_el is not defined" :=
  ⟨rfl, rfl⟩

/-- C4 counterexample: a matrix whose only non-zero cell has no entry in
either backward map.  `map_back_sparse` does not fail with a lookup
error: `pandas.Series.map` silently produces the missing-value sentinel
(`none`, NaN in pandas), and the row is returned, degraded. -/
theorem C4_counterexample :
    map_back_sparse (fun u i => if u = 0 ∧ i = 0 then 5 else 0) 1 1
      (fun _ => none) (fun _ => none) = [(none, none, 5)] := by
  decide

/-- C4 amended: for every matrix and backward maps, every non-zero cell
yields exactly one output row and no failure; an index missing from a
backward map is silently mapped to the missing-value sentinel (`none`,
pandas NaN) rather than raising or dropping the row. -/
theorem C4_missing_key_degrades_silently (X : ℕ → ℕ → ℚ) (m n : ℕ)
    (bu bi : ℕ → Option ℕ) (u i : ℕ) (hu : u < m) (hi : i < n)
    (hne : X u i ≠ 0) :
    (bu u, bi i, X u i) ∈ map_back_sparse X m n bu bi :=
  mem_map_back_sparse.2 ⟨u, i, hu, hi, hne, rfl⟩

/-! ### Witnesses -/

theorem C2_witness :
    ((stratified_split [⟨1, 10, 5⟩, ⟨1, 20, 3⟩] (1/2) 42 ⟨fun _ => 0, 0⟩).isOk = true ∧
      0 < Nusers [⟨1, 10, 5⟩, ⟨1, 20, 3⟩]) ∧
    (Disjoint
        (nzSet (trainM [⟨1, 10, 5⟩, ⟨1, 20, 3⟩] (1/2) 42 ⟨fun _ => 0, 0⟩)
          (Nitems [⟨1, 10, 5⟩, ⟨1, 20, 3⟩]) 0)
        (nzSet (testM [⟨1, 10, 5⟩, ⟨1, 20, 3⟩] (1/2) 42 ⟨fun _ => 0, 0⟩)
          (Nitems [⟨1, 10, 5⟩, ⟨1, 20, 3⟩]) 0) ∧
      nzSet (trainM [⟨1, 10, 5⟩, ⟨1, 20, 3⟩] (1/2) 42 ⟨fun _ => 0, 0⟩)
          (Nitems [⟨1, 10, 5⟩, ⟨1, 20, 3⟩]) 0 ∪
        nzSet (testM [⟨1, 10, 5⟩, ⟨1, 20, 3⟩] (1/2) 42 ⟨fun _ => 0, 0⟩)
          (Nitems [⟨1, 10, 5⟩, ⟨1, 20, 3⟩]) 0
        = nzSet (gen_affinity_core [⟨1, 10, 5⟩, ⟨1, 20, 3⟩])
            (Nitems [⟨1, 10, 5⟩, ⟨1, 20, 3⟩]) 0 ∧
      (nzSet (trainM [⟨1, 10, 5⟩, ⟨1, 20, 3⟩] (1/2) 42 ⟨fun _ => 0, 0⟩)
          (Nitems [⟨1, 10, 5⟩, ⟨1, 20, 3⟩]) 0).card +
        (nzSet (testM [⟨1, 10, 5⟩, ⟨1, 20, 3⟩] (1/2) 42 ⟨fun _ => 0, 0⟩)
          (Nitems [⟨1, 10, 5⟩, ⟨1, 20, 3⟩]) 0).card
        = (nzSet (gen_affinity_core [⟨1, 10, 5⟩, ⟨1, 20, 3⟩])
            (Nitems [⟨1, 10, 5⟩, ⟨1, 20, 3⟩]) 0).card) :=
  ⟨⟨by decide, by decide⟩,
    C2_split_row_invariants [⟨1, 10, 5⟩, ⟨1, 20, 3⟩] (1/2) 42 ⟨fun _ => 0, 0⟩
      (by decide) 0 (by decide)⟩

theorem C6_witness :
    ((0 : ℚ) < 1/4 ∧ (1/4 : ℚ) < 1) ∧
    (test_cut (1/4) = ⌊((1 : ℚ) - 1/4) * 100⌋ ∧
      ∀ rated : ℕ, (tstCount rated (1/4) : ℤ)
        = ⌊((rated : ℚ) * ((test_cut (1/4) : ℤ) : ℚ)) / 100⌋) :=
  ⟨⟨by decide, by decide⟩, C6_test_cut_arithmetic (1/4) (by decide) (by decide)⟩

theorem C7_witness :
    (1 ∈ ([⟨1, 10, 5⟩, ⟨2, 20, 3⟩] : List Row).map Row.user ∧ 0 < Nusers [⟨1, 10, 5⟩, ⟨2, 20, 3⟩]) ∧
    map_back_users [⟨1, 10, 5⟩, ⟨2, 20, 3⟩]
      (map_users [⟨1, 10, 5⟩, ⟨2, 20, 3⟩] 1) = some 1 ∧
    (∃ x ∈ ([⟨1, 10, 5⟩, ⟨2, 20, 3⟩] : List Row).map Row.user,
      map_users [⟨1, 10, 5⟩, ⟨2, 20, 3⟩] x = 0) :=
  ⟨⟨by decide, by decide⟩,
    (C7_index_bijection [⟨1, 10, 5⟩, ⟨2, 20, 3⟩]).1.1 1 (by decide),
    (C7_index_bijection [⟨1, 10, 5⟩, ⟨2, 20, 3⟩]).1.2.2.2.1 0 (by decide)⟩

theorem C8_witness :
    (gen_affinity_matrixE [⟨7, 100, 5⟩, ⟨7, 200, 3⟩, ⟨9, 100, 4⟩]
        = .ok (gen_affinity_core [⟨7, 100, 5⟩, ⟨7, 200, 3⟩, ⟨9, 100, 4⟩]) ∧
      DupFree [⟨7, 100, 5⟩, ⟨7, 200, 3⟩, ⟨9, 100, 4⟩] ∧
      (∀ t ∈ ([⟨7, 100, 5⟩, ⟨7, 200, 3⟩, ⟨9, 100, 4⟩] : List Row), t.rating ≠ 0)) ∧
    (map_back_sparse (gen_affinity_core [⟨7, 100, 5⟩, ⟨7, 200, 3⟩, ⟨9, 100, 4⟩])
      (Nusers [⟨7, 100, 5⟩, ⟨7, 200, 3⟩, ⟨9, 100, 4⟩])
      (Nitems [⟨7, 100, 5⟩, ⟨7, 200, 3⟩, ⟨9, 100, 4⟩])
      (map_back_users [⟨7, 100, 5⟩, ⟨7, 200, 3⟩, ⟨9, 100, 4⟩])
      (map_back_items [⟨7, 100, 5⟩, ⟨7, 200, 3⟩, ⟨9, 100, 4⟩])).Perm
      (([⟨7, 100, 5⟩, ⟨7, 200, 3⟩, ⟨9, 100, 4⟩] : List Row).map
        (fun t => ((some t.user : Option ℕ), (some t.item : Option ℕ), t.rating))) :=
  ⟨⟨rfl, by decide, by decide⟩,
    C8_round_trip [⟨7, 100, 5⟩, ⟨7, 200, 3⟩, ⟨9, 100, 4⟩] rfl (by decide) (by decide)⟩

theorem C9_witness :
    (stratified_split [⟨1, 10, 5⟩, ⟨1, 20, 3⟩] (1/2) 7 ⟨fun _ => 2, 0⟩).isOk = true ∧
    ((∀ u i, storeGet (splitResult [⟨1, 10, 5⟩, ⟨1, 20, 3⟩] (1/2) 7 ⟨fun _ => 2, 0⟩).store 0 u i
        = gen_affinity_core [⟨1, 10, 5⟩, ⟨1, 20, 3⟩] u i) ∧
      (splitResult [⟨1, 10, 5⟩, ⟨1, 20, 3⟩] (1/2) 7 ⟨fun _ => 2, 0⟩).store.length = 3 ∧
      trainM [⟨1, 10, 5⟩, ⟨1, 20, 3⟩] (1/2) 7 ⟨fun _ => 2, 0⟩
        = storeGet (splitResult [⟨1, 10, 5⟩, ⟨1, 20, 3⟩] (1/2) 7 ⟨fun _ => 2, 0⟩).store 1 ∧
      testM [⟨1, 10, 5⟩, ⟨1, 20, 3⟩] (1/2) 7 ⟨fun _ => 2, 0⟩
        = storeGet (splitResult [⟨1, 10, 5⟩, ⟨1, 20, 3⟩] (1/2) 7 ⟨fun _ => 2, 0⟩).store 2) :=
  ⟨by decide,
    C9_source_matrix_not_mutated [⟨1, 10, 5⟩, ⟨1, 20, 3⟩] (1/2) 7 ⟨fun _ => 2, 0⟩ (by decide)⟩

theorem C10_witness :
    ((0 : ℚ) < 1/2 ∧ (1/2 : ℚ) < 1) ∧
    (tstCount (rowNonzeroL (fun i => if i < 2 then (3 : ℚ) else 0) 2).length (1/2)
        ≤ (rowNonzeroL (fun i => if i < 2 then (3 : ℚ) else 0) 2).length ∧
      (0 < (rowNonzeroL (fun i => if i < 2 then (3 : ℚ) else 0) 2).length →
        tstCount (rowNonzeroL (fun i => if i < 2 then (3 : ℚ) else 0) 2).length (1/2)
          < (rowNonzeroL (fun i => if i < 2 then (3 : ℚ) else 0) 2).length) ∧
      (sampleLoop
        (tstCount (rowNonzeroL (fun i => if i < 2 then (3 : ℚ) else 0) 2).length (1/2))
        (rowNonzeroL (fun i => if i < 2 then (3 : ℚ) else 0) 2) [] ⟨fun _ => 0, 0⟩).isOk
        = true) :=
  ⟨⟨by decide, by decide⟩,
    C10_sampling_loop_safe (1/2) (by decide) (by decide)
      (fun i => if i < 2 then (3 : ℚ) else 0) 2 ⟨fun _ => 0, 0⟩⟩

theorem C4_witness :
    ((0 : ℕ) < 1 ∧ (0 : ℕ) < 1 ∧
      (fun u i => if u = 0 ∧ i = 0 then (5 : ℚ) else 0) 0 0 ≠ 0) ∧
    ((fun _ : ℕ => (none : Option ℕ)) 0, (fun _ : ℕ => (none : Option ℕ)) 0,
        (fun u i => if u = 0 ∧ i = 0 then (5 : ℚ) else 0) 0 0) ∈
      map_back_sparse (fun u i => if u = 0 ∧ i = 0 then (5 : ℚ) else 0) 1 1
        (fun _ => none) (fun _ => none) :=
  ⟨⟨by decide, by decide, by decide⟩,
    C4_missing_key_degrades_silently (fun u i => if u = 0 ∧ i = 0 then (5 : ℚ) else 0)
      1 1 (fun _ => none) (fun _ => none) 0 0 (by decide) (by decide) (by decide)⟩

end RBM
